import Mathlib

/-!
# Verification of `tools/diff_cpp/main.cpp`

The program decodes a packed 32-bit "bits" value of a block header and returns
its difficulty:

```
double difficulty(const unsigned bits) {
  const unsigned exponent_diff  = 8 * (0x1D - ((bits >> 24) & 0xFF));
  const double significand = bits & 0xFFFFFF;
  return std::ldexp(0x00FFFF / significand, exponent_diff);
}
```

## Embedding

* `unsigned` is a `Nat` below `2 ^ 32`; subtraction and multiplication wrap
  modulo `2 ^ 32` (`wrap32`).  The conversion of the `unsigned` argument to the
  `int` parameter of `std::ldexp` is the two's complement reading (`toInt32`).
* `double` is the type `Double`: a finite value, carried as a rational number, or
  one of the special values `+inf`, `-inf`, `NaN`.  The sign of zero is not
  modelled.
* The function is embedded twice, over the same integer part.
  `difficulty` is its exact reading: division and `ldexp` follow the IEEE 754
  case analysis on the special values and are not rounded on finite values.  The
  statements of the specification that are worded in exact arithmetic are about
  this reading.
  `difficulty_binary64` is the function on binary64 doubles: every operation is
  the exact one followed by `round64`, rounding to nearest with ties to even, 53
  significant bits, gradual underflow to multiples of `2 ^ (-1074)` and overflow
  to an infinity.
-/

namespace DiffCpp

/-! ## Data model -/

/-- Values of a C++ `double`: exact finite values and the three special values. -/
inductive Double where
  | finite (q : ℚ)
  | posInf
  | negInf
  | nan
  deriving DecidableEq

/-- Reduction of an integer to the range of a 32-bit `unsigned`. -/
def wrap32 (z : Int) : Nat := (z % 2 ^ 32).toNat

/-- Conversion of a 32-bit `unsigned` to a 32-bit `int` (two's complement). -/
def toInt32 (u : Nat) : Int := if u < 2 ^ 31 then (u : Int) else (u : Int) - 2 ^ 32

/-- Conversion of an `unsigned` or `int` to `double`; exact below `2 ^ 53`. -/
def ofNat (n : Nat) : Double := .finite (n : ℚ)

/-- Division of doubles (`operator/`), not rounded on finite values. -/
def fdiv : Double → Double → Double
  | .nan, _ => .nan
  | _, .nan => .nan
  | .finite a, .finite b =>
      if b = 0 then (if 0 < a then .posInf else if a < 0 then .negInf else .nan)
      else .finite (a / b)
  | .finite _, _ => .finite 0
  | .posInf, .finite b => if 0 ≤ b then .posInf else .negInf
  | .negInf, .finite b => if 0 ≤ b then .negInf else .posInf
  | _, _ => .nan

/-- The library function `std::ldexp(x, n)`: `x` times two to the power `n`, not
rounded on finite values. -/
def ldexp : Double → Int → Double
  | .finite q, n => .finite (q * 2 ^ n)
  | x, _ => x

/-! ## The function `difficulty`, exact reading -/

/-- The subexpression `(bits >> 24) & 0xFF`. -/
def exponent_byte (bits : Nat) : Nat := (bits >>> 24) &&& 0xFF

/-- The subexpression `bits & 0xFFFFFF`. -/
def significand_bits (bits : Nat) : Nat := bits &&& 0xFFFFFF

/-- The local `const unsigned exponent_diff = 8 * (0x1D - ((bits >> 24) & 0xFF))`,
computed in 32-bit unsigned arithmetic. -/
def exponent_diff (bits : Nat) : Nat :=
  wrap32 (8 * (wrap32 ((0x1D : Int) - (exponent_byte bits : Int)) : Int))

/-- The local `const double significand = bits & 0xFFFFFF`. -/
def significand (bits : Nat) : Double := ofNat (significand_bits bits)

/-- The function `double difficulty(const unsigned bits)`, in exact arithmetic. -/
def difficulty (bits : Nat) : Double :=
  ldexp (fdiv (ofNat 0x00FFFF) (significand bits)) (toInt32 (exponent_diff bits))

/-! ## The function `difficulty` on binary64 doubles -/

/-- Rounding of a rational number to the nearest integer, ties to the even one. -/
def roundTiesToEven (x : ℚ) : Int :=
  if x - (⌊x⌋ : ℚ) < 1 / 2 then ⌊x⌋
  else if 1 / 2 < x - (⌊x⌋ : ℚ) then ⌊x⌋ + 1
  else if ⌊x⌋ % 2 = 0 then ⌊x⌋ else ⌊x⌋ + 1

/-- The binary exponent at which `q` is rounded in binary64: that of its binade, and
the least normal exponent `-1022` for the subnormal range. -/
def binade (q : ℚ) : Int := max (Int.log 2 |q|) (-1022)

/-- Rounding of a rational number to binary64 (IEEE 754 round to nearest, ties to even):
a multiple of `2 ^ (binade q - 52)`, so 53 significant bits and gradual underflow down
to multiples of `2 ^ (-1074)`, and an infinity from `2 ^ 1024` on. -/
def round64 (q : ℚ) : Double :=
  if 2 ^ 1024 ≤ (roundTiesToEven (q / 2 ^ (binade q - 52)) : ℚ) * 2 ^ (binade q - 52) then
    .posInf
  else if (roundTiesToEven (q / 2 ^ (binade q - 52)) : ℚ) * 2 ^ (binade q - 52) ≤ -2 ^ 1024 then
    .negInf
  else .finite ((roundTiesToEven (q / 2 ^ (binade q - 52)) : ℚ) * 2 ^ (binade q - 52))

/-- The binary64 result of an operation: its exact result, rounded. -/
def rounded : Double → Double
  | .finite q => round64 q
  | x => x

/-- Conversion of an `unsigned` or `int` to a binary64 `double`. -/
def ofNat64 (n : Nat) : Double := rounded (ofNat n)

/-- Division of binary64 doubles (`operator/`). -/
def fdiv64 (x y : Double) : Double := rounded (fdiv x y)

/-- The library function `std::ldexp(x, n)` on binary64 doubles. -/
def ldexp64 (x : Double) (n : Int) : Double := rounded (ldexp x n)

/-- The local `const double significand = bits & 0xFFFFFF`, as a binary64 double. -/
def significand64 (bits : Nat) : Double := ofNat64 (significand_bits bits)

/-- The function `double difficulty(const unsigned bits)` on binary64 doubles. -/
def difficulty_binary64 (bits : Nat) : Double :=
  ldexp64 (fdiv64 (ofNat64 0x00FFFF) (significand64 bits)) (toInt32 (exponent_diff bits))

/-- The value `main` passes to `difficulty`. -/
def main_bits : Nat := 0x1c0eba64

/-- The target a packed value encodes, as the claim on the ratio of targets words
it: `s * 256 ^ (e - 3)` for exponent byte `e ≥ 3` and significand `s`.  It is
not part of the source; `difficulty` is compared with it. -/
def target (bits : Nat) : Nat := significand_bits bits * 256 ^ (exponent_byte bits - 3)

/-- The reference packed value, of exponent byte `0x1D` and significand `0x00FFFF`. -/
def reference_bits : Nat := 0x1d00ffff

/-! ## Lemmas on the field extraction and the exponent -/

theorem exponent_byte_eq (bits : Nat) : exponent_byte bits = bits / 2 ^ 24 % 2 ^ 8 := by
  unfold exponent_byte
  rw [Nat.shiftRight_eq_div_pow]
  exact Nat.and_pow_two_sub_one_eq_mod _ 8

theorem significand_bits_eq (bits : Nat) : significand_bits bits = bits % 2 ^ 24 := by
  unfold significand_bits
  exact Nat.and_pow_two_sub_one_eq_mod _ 24

theorem exponent_byte_lt (bits : Nat) : exponent_byte bits < 256 := by
  rw [exponent_byte_eq]
  omega

theorem significand_bits_lt (bits : Nat) : significand_bits bits < 2 ^ 24 := by
  rw [significand_bits_eq]
  omega

/-- The wrapped unsigned computation, read back as an `int`, is `8 * (29 - e)`. -/
theorem toInt32_wrapped (e : Nat) (he : e < 256) :
    toInt32 (wrap32 (8 * (wrap32 ((0x1D : Int) - (e : Int)) : Int))) = 8 * (29 - (e : Int)) := by
  unfold toInt32 wrap32
  split_ifs <;> omega

theorem toInt32_exponent_diff (bits : Nat) :
    toInt32 (exponent_diff bits) = 8 * (29 - (exponent_byte bits : Int)) :=
  toInt32_wrapped _ (exponent_byte_lt bits)

/-- Closed form of `difficulty` for a non-zero significand. -/
theorem difficulty_finite (bits : Nat) (hs : significand_bits bits ≠ 0) :
    difficulty bits
      = .finite ((65535 / (significand_bits bits : ℚ)) * 2 ^ (8 * (29 - (exponent_byte bits : Int)))) := by
  have h : (significand_bits bits : ℚ) ≠ 0 := by exact_mod_cast hs
  simp [difficulty, significand, ofNat, fdiv, ldexp, toInt32_exponent_diff, h]

/-- Closed form of `difficulty` for a zero significand. -/
theorem difficulty_inf (bits : Nat) (hs : significand_bits bits = 0) :
    difficulty bits = .posInf := by
  simp [difficulty, significand, ofNat, fdiv, ldexp, hs]

/-- Packing an exponent byte and a significand, then extracting the exponent byte. -/
theorem exponent_byte_pack (e s : Nat) (he : e < 256) (hs : s < 2 ^ 24) :
    exponent_byte (e * 2 ^ 24 + s) = e := by
  rw [exponent_byte_eq]
  omega

/-- Packing an exponent byte and a significand, then extracting the significand. -/
theorem significand_bits_pack (e s : Nat) (hs : s < 2 ^ 24) :
    significand_bits (e * 2 ^ 24 + s) = s := by
  rw [significand_bits_eq]
  omega

/-- One more on the exponent byte is eight less on the binary exponent. -/
theorem scale_step (e : Nat) :
    (2 : ℚ) ^ (8 * (29 - ((e + 1 : Nat) : Int))) * 256 = 2 ^ (8 * (29 - (e : Int))) := by
  have h : 8 * (29 - (e : Int)) = 8 * (29 - ((e + 1 : Nat) : Int)) + 8 := by
    push_cast
    ring
  rw [h, zpow_add₀ (two_ne_zero)]
  norm_num

/-- The power of 256 in `target` as a power of two with an integer exponent. -/
theorem pow256_eq_zpow (e : Nat) (he : 3 ≤ e) :
    ((256 ^ (e - 3) : Nat) : ℚ) = 2 ^ (8 * ((e : Int) - 3)) := by
  have h : 8 * ((e : Int) - 3) = ((8 * (e - 3) : Nat) : Int) := by
    push_cast [Nat.cast_sub he]
    ring
  rw [h, zpow_natCast, pow_mul]
  norm_num

/-- The product of a difficulty and the target of its input is the reference target. -/
theorem ratio_mul_target (bits : Nat) (he : 3 ≤ exponent_byte bits)
    (hs : significand_bits bits ≠ 0) :
    (65535 / (significand_bits bits : ℚ)) * 2 ^ (8 * (29 - (exponent_byte bits : Int)))
      * (target bits : ℚ) = 65535 * 256 ^ 26 := by
  have h : (significand_bits bits : ℚ) ≠ 0 := by exact_mod_cast hs
  have h2 : (2 : ℚ) ^ (8 * (29 - (exponent_byte bits : Int)))
      * 2 ^ (8 * ((exponent_byte bits : Int) - 3)) = 256 ^ 26 := by
    rw [← zpow_add₀ (two_ne_zero)]
    have h3 : 8 * (29 - (exponent_byte bits : Int)) + 8 * ((exponent_byte bits : Int) - 3)
        = ((208 : Nat) : Int) := by
      push_cast
      ring
    rw [h3, zpow_natCast]
    norm_num
  unfold target
  rw [Nat.cast_mul, pow256_eq_zpow _ he]
  calc 65535 / (significand_bits bits : ℚ) * 2 ^ (8 * (29 - (exponent_byte bits : Int)))
        * ((significand_bits bits : ℚ) * 2 ^ (8 * ((exponent_byte bits : Int) - 3)))
      = 65535 * ((significand_bits bits : ℚ) / (significand_bits bits : ℚ))
          * ((2 : ℚ) ^ (8 * (29 - (exponent_byte bits : Int)))
            * 2 ^ (8 * ((exponent_byte bits : Int) - 3))) := by ring
    _ = 65535 * 256 ^ 26 := by rw [h2, div_self h, mul_one]

/-- The scale factor is positive. -/
theorem scale_pos (e : Nat) : (0 : ℚ) < 2 ^ (8 * (29 - (e : Int))) := by
  positivity

/-- The scale factor is at most `2 ^ 232`, its value at exponent byte 0. -/
theorem scale_le (e : Nat) : (2 : ℚ) ^ (8 * (29 - (e : Int))) ≤ 2 ^ 232 := by
  have h : (2 : ℚ) ^ (8 * (29 - (e : Int))) ≤ 2 ^ ((232 : Nat) : Int) :=
    zpow_le_zpow_right₀ one_le_two (by push_cast; omega)
  rwa [zpow_natCast] at h

/-- The scale factor is at most `2 ^ 224` once the exponent byte is not 0. -/
theorem scale_le_of_ne_zero (e : Nat) (he : e ≠ 0) :
    (2 : ℚ) ^ (8 * (29 - (e : Int))) ≤ 2 ^ 224 := by
  have h : (2 : ℚ) ^ (8 * (29 - (e : Int))) ≤ 2 ^ ((224 : Nat) : Int) :=
    zpow_le_zpow_right₀ one_le_two (by push_cast; omega)
  rwa [zpow_natCast] at h

/-- The ratio `65535 / s` is positive and at most 65535 for a positive significand. -/
theorem ratio_bounds (s : Nat) (hs : s ≠ 0) :
    (0 : ℚ) < 65535 / (s : ℚ) ∧ 65535 / (s : ℚ) ≤ 65535 := by
  have h1 : (1 : ℚ) ≤ (s : ℚ) := by exact_mod_cast Nat.one_le_iff_ne_zero.mpr hs
  exact ⟨by positivity, div_le_self (by norm_num) h1⟩

/-- The ratio `65535 / s` is at most half of 65535 for a significand above 1. -/
theorem ratio_le_half (s : Nat) (hs : 2 ≤ s) : 65535 / (s : ℚ) ≤ 65535 / 2 := by
  have h2 : (2 : ℚ) ≤ (s : ℚ) := by exact_mod_cast hs
  exact div_le_div_of_nonneg_left (by norm_num) (by norm_num) h2

/-- A 32-bit value is recovered from its two fields. -/
theorem bits_eq_fields (bits : Nat) (hb : bits < 2 ^ 32) :
    bits = exponent_byte bits * 2 ^ 24 + significand_bits bits := by
  rw [exponent_byte_eq, significand_bits_eq]
  omega

/-! ## Lemmas on rounding to binary64 -/

theorem roundTiesToEven_intCast (z : Int) : roundTiesToEven (z : ℚ) = z := by
  simp [roundTiesToEven]

theorem roundTiesToEven_bounds (x : ℚ) :
    ⌊x⌋ ≤ roundTiesToEven x ∧ roundTiesToEven x ≤ ⌊x⌋ + 1 := by
  unfold roundTiesToEven
  split_ifs <;> omega

theorem roundTiesToEven_small (x : ℚ) (h0 : 0 ≤ x) (h : x < 1 / 2) : roundTiesToEven x = 0 := by
  have hf : ⌊x⌋ = 0 := Int.floor_eq_zero_iff.mpr ⟨h0, by linarith⟩
  unfold roundTiesToEven
  rw [hf, if_pos (by simpa using h)]

theorem binade_ge (q : ℚ) : -1022 ≤ binade q := le_max_right _ _

/-- A value below `2 ^ 1024` in magnitude whose rounded multiple is known. -/
theorem round64_of_value (q r : ℚ)
    (h : (roundTiesToEven (q / 2 ^ (binade q - 52)) : ℚ) * 2 ^ (binade q - 52) = r)
    (h1 : r < 2 ^ 1024) (h2 : -2 ^ 1024 < r) : round64 q = .finite r := by
  unfold round64
  rw [h, if_neg (not_le.mpr h1), if_neg (not_le.mpr h2)]

/-- Underflow: a non-negative value below half of the least subnormal rounds to zero. -/
theorem round64_underflow (x : ℚ) (h0 : 0 ≤ x) (h : x < 2 ^ (-1075 : Int)) :
    round64 x = .finite 0 := by
  have hu : (2 : ℚ) ^ (-1074 : Int) ≤ 2 ^ (binade x - 52) :=
    zpow_le_zpow_right₀ one_le_two (by have := binade_ge x; omega)
  have hupos : (0 : ℚ) < 2 ^ (binade x - 52) := by positivity
  have hy0 : 0 ≤ x / 2 ^ (binade x - 52) := div_nonneg h0 hupos.le
  have hy : x / 2 ^ (binade x - 52) < 1 / 2 := by
    rw [div_lt_iff₀ hupos]
    have h3 : (2 : ℚ) ^ (-1075 : Int) = 1 / 2 * 2 ^ (-1074 : Int) := by
      rw [show (-1075 : Int) = -1 + -1074 by norm_num, zpow_add₀ two_ne_zero]
      norm_num
    calc x < 2 ^ (-1075 : Int) := h
      _ = 1 / 2 * 2 ^ (-1074 : Int) := h3
      _ ≤ 1 / 2 * 2 ^ (binade x - 52) := mul_le_mul_of_nonneg_left hu (by norm_num)
  apply round64_of_value
  · rw [roundTiesToEven_small _ hy0 hy]
    simp
  · norm_num
  · norm_num

/-- Exactness: `N * 2 ^ j` with `N < 2 ^ 53` and `j ≥ -1074` is a binary64 value. -/
theorem round64_exact (N : Nat) (j : Int) (hN0 : 0 < N) (hN : N < 2 ^ 53) (hj : -1074 ≤ j)
    (hlt : (N : ℚ) * 2 ^ j < 2 ^ 1024) : round64 ((N : ℚ) * 2 ^ j) = .finite ((N : ℚ) * 2 ^ j) := by
  have hNq : (0 : ℚ) < (N : ℚ) := by exact_mod_cast hN0
  have hx : (0 : ℚ) < (N : ℚ) * 2 ^ j := by positivity
  have hlog : Int.log 2 |(N : ℚ) * 2 ^ j| < j + 53 := by
    rw [abs_of_pos hx, ← Int.lt_zpow_iff_log_lt (by norm_num) hx]
    have h53 : (N : ℚ) < 2 ^ 53 := by exact_mod_cast hN
    have : ((2 : Nat) : ℚ) ^ (j + 53) = 2 ^ 53 * 2 ^ j := by
      rw [zpow_add₀ (by norm_num), mul_comm]
      norm_num
    rw [this]
    exact mul_lt_mul_of_pos_right h53 (by positivity)
  have hB : binade ((N : ℚ) * 2 ^ j) - 52 ≤ j := by
    unfold binade
    have := max_le (a := Int.log 2 |(N : ℚ) * 2 ^ j|) (b := -1022) (c := j + 52)
      (by omega) (by omega)
    omega
  obtain ⟨k, hk⟩ := Int.eq_ofNat_of_zero_le (sub_nonneg.mpr hB)
  have hupos : (0 : ℚ) < 2 ^ (binade ((N : ℚ) * 2 ^ j) - 52) := by positivity
  have hsplit : (2 : ℚ) ^ j = 2 ^ k * 2 ^ (binade ((N : ℚ) * 2 ^ j) - 52) := by
    have : j = (k : Int) + (binade ((N : ℚ) * 2 ^ j) - 52) := by omega
    conv_lhs => rw [this]
    rw [zpow_add₀ two_ne_zero, zpow_natCast]
  have hdiv : (N : ℚ) * 2 ^ j / 2 ^ (binade ((N : ℚ) * 2 ^ j) - 52)
      = (((N * 2 ^ k : Nat) : Int) : ℚ) := by
    rw [div_eq_iff hupos.ne']
    conv_lhs => rw [hsplit]
    push_cast
    ring
  apply round64_of_value
  · rw [hdiv, roundTiesToEven_intCast]
    conv_rhs => rw [hsplit]
    push_cast
    ring
  · exact hlt
  · linarith [show (0 : ℚ) < 2 ^ 1024 by positivity]

/-- Exactness up to `N = 2 ^ 53`, the value a rounding up of the significand reaches. -/
theorem round64_scale (N : Nat) (j : Int) (hN0 : 0 < N) (hN : N ≤ 2 ^ 53) (hj : -1074 ≤ j)
    (hlt : (N : ℚ) * 2 ^ j < 2 ^ 1024) : round64 ((N : ℚ) * 2 ^ j) = .finite ((N : ℚ) * 2 ^ j) := by
  rcases Nat.lt_or_ge N (2 ^ 53) with h | h
  · exact round64_exact N j hN0 h hj hlt
  · have hN53 : N = 2 ^ 53 := le_antisymm hN h
    have hrw : (N : ℚ) * 2 ^ j = ((2 ^ 52 : Nat) : ℚ) * 2 ^ (j + 1) := by
      rw [hN53, zpow_add₀ two_ne_zero]
      push_cast
      ring
    rw [hrw] at hlt ⊢
    exact round64_exact (2 ^ 52) (j + 1) (by norm_num) (by norm_num) (by omega) hlt

/-- Rounding in the normal range: 53 significant bits at the exponent of the binade. -/
theorem round64_normal (x : ℚ) (hlo : 2 ^ (-1022 : Int) ≤ x) (hhi : x < 2 ^ (1023 : Int)) :
    ∃ N : Nat, 2 ^ 52 ≤ N ∧ N ≤ 2 ^ 53 ∧
      round64 x = .finite ((N : ℚ) * 2 ^ (Int.log 2 x - 52)) := by
  have hx : 0 < x := lt_of_lt_of_le (by positivity) hlo
  have hE1 : -1022 ≤ Int.log 2 x := by
    rw [← Int.zpow_le_iff_le_log (by norm_num) hx]
    exact_mod_cast hlo
  have hE2 : Int.log 2 x < 1023 := by
    rw [← Int.lt_zpow_iff_log_lt (by norm_num) hx]
    exact_mod_cast hhi
  have hB : binade x = Int.log 2 x := by
    unfold binade
    rw [abs_of_pos hx]
    exact max_eq_left hE1
  have hupos : (0 : ℚ) < 2 ^ (Int.log 2 x - 52) := by positivity
  have hle : (2 : ℚ) ^ (Int.log 2 x) ≤ x := by
    have := Int.zpow_log_le_self (b := 2) (by norm_num) hx
    exact_mod_cast this
  have hlt : x < (2 : ℚ) ^ (Int.log 2 x + 1) := by
    have := Int.lt_zpow_succ_log_self (b := 2) (by norm_num) x
    exact_mod_cast this
  have hp52 : (2 : ℚ) ^ 52 * 2 ^ (Int.log 2 x - 52) = 2 ^ (Int.log 2 x) := by
    rw [← zpow_natCast (2 : ℚ) 52, ← zpow_add₀ two_ne_zero]
    congr 1
    push_cast
    ring
  have hp53 : (2 : ℚ) ^ 53 * 2 ^ (Int.log 2 x - 52) = 2 ^ (Int.log 2 x + 1) := by
    rw [← zpow_natCast (2 : ℚ) 53, ← zpow_add₀ two_ne_zero]
    congr 1
    push_cast
    ring
  have hy1 : ((2 ^ 52 : Int) : ℚ) ≤ x / 2 ^ (Int.log 2 x - 52) := by
    rw [le_div_iff₀ hupos]
    rw [Int.cast_pow, Int.cast_ofNat, hp52]
    exact hle
  have hy2 : x / 2 ^ (Int.log 2 x - 52) < ((2 ^ 53 : Int) : ℚ) := by
    rw [div_lt_iff₀ hupos]
    rw [Int.cast_pow, Int.cast_ofNat, hp53]
    exact hlt
  have hf1 : (2 ^ 52 : Int) ≤ ⌊x / 2 ^ (Int.log 2 x - 52)⌋ := Int.le_floor.mpr hy1
  have hf2 : ⌊x / 2 ^ (Int.log 2 x - 52)⌋ < (2 ^ 53 : Int) := Int.floor_lt.mpr hy2
  obtain ⟨hr1, hr2⟩ := roundTiesToEven_bounds (x / 2 ^ (Int.log 2 x - 52))
  obtain ⟨N, hN⟩ := Int.eq_ofNat_of_zero_le
    (show 0 ≤ roundTiesToEven (x / 2 ^ (Int.log 2 x - 52)) by omega)
  have hNq : (N : ℚ) ≤ 2 ^ 53 := by
    have : N ≤ 2 ^ 53 := by omega
    exact_mod_cast this
  refine ⟨N, by omega, by omega, ?_⟩
  apply round64_of_value
  · rw [hB, hN]
    norm_cast
  · calc (N : ℚ) * 2 ^ (Int.log 2 x - 52)
        ≤ 2 ^ 53 * 2 ^ (Int.log 2 x - 52) := mul_le_mul_of_nonneg_right hNq hupos.le
      _ = 2 ^ (Int.log 2 x + 1) := hp53
      _ ≤ 2 ^ (1023 : Int) := zpow_le_zpow_right₀ one_le_two (by omega)
      _ < 2 ^ 1024 := by norm_num
  · have : (0 : ℚ) ≤ (N : ℚ) * 2 ^ (Int.log 2 x - 52) := by positivity
    linarith [show (0 : ℚ) < 2 ^ 1024 by positivity]

/-! ## Lemmas on `difficulty_binary64` -/

/-- The conversion of an integer below `2 ^ 53` to binary64 is exact. -/
theorem ofNat64_eq (n : Nat) (hn : n < 2 ^ 53) : ofNat64 n = .finite (n : ℚ) := by
  unfold ofNat64 ofNat rounded
  rcases Nat.eq_zero_or_pos n with h0 | hpos
  · subst h0
    simpa using round64_underflow 0 le_rfl (by positivity)
  · have h := round64_exact n 0 hpos hn (by norm_num) (by
      have : (n : ℚ) < 2 ^ 53 := by exact_mod_cast hn
      rw [zpow_zero, mul_one]
      linarith [show (2 : ℚ) ^ 53 < 2 ^ 1024 by norm_num])
    simpa using h

/-- The rounded quotient `65535 / s`: 53 significant bits at an exponent in `[-9, 15]`. -/
theorem quotient64 (s : Nat) (hs0 : 0 < s) (hs : s < 2 ^ 24) :
    ∃ (N : Nat) (j : Int), 2 ^ 52 ≤ N ∧ N ≤ 2 ^ 53 ∧ -61 ≤ j ∧ j ≤ -37 ∧
      fdiv64 (ofNat64 0x00FFFF) (ofNat64 s) = .finite ((N : ℚ) * 2 ^ j) := by
  have hsq0 : (0 : ℚ) < (s : ℚ) := by exact_mod_cast hs0
  have hsq1 : (1 : ℚ) ≤ (s : ℚ) := by exact_mod_cast hs0
  have hsq : (s : ℚ) < 2 ^ 24 := by exact_mod_cast hs
  have hx : (0 : ℚ) < 65535 / (s : ℚ) := by positivity
  have hlo : (2 : ℚ) ^ (-9 : Int) ≤ 65535 / (s : ℚ) := by
    rw [le_div_iff₀ hsq0]
    have : (2 : ℚ) ^ (-9 : Int) = 1 / 512 := by
      rw [zpow_neg]
      norm_num
    rw [this]
    linarith
  have hhi : 65535 / (s : ℚ) < 2 ^ (16 : Int) := by
    have h1 : 65535 / (s : ℚ) ≤ 65535 := div_le_self (by norm_num) hsq1
    have h2 : (65535 : ℚ) < 2 ^ (16 : Int) := by norm_num
    linarith
  have hE1 : -9 ≤ Int.log 2 (65535 / (s : ℚ)) := by
    rw [← Int.zpow_le_iff_le_log (by norm_num) hx]
    exact_mod_cast hlo
  have hE2 : Int.log 2 (65535 / (s : ℚ)) < 16 := by
    rw [← Int.lt_zpow_iff_log_lt (by norm_num) hx]
    exact_mod_cast hhi
  obtain ⟨N, h52, h53, hr⟩ := round64_normal (65535 / (s : ℚ))
    (le_trans (zpow_le_zpow_right₀ one_le_two (by norm_num)) hlo)
    (lt_of_lt_of_le hhi (zpow_le_zpow_right₀ one_le_two (by norm_num)))
  refine ⟨N, Int.log 2 (65535 / (s : ℚ)) - 52, h52, h53, by omega, by omega, ?_⟩
  rw [ofNat64_eq _ (by norm_num), ofNat64_eq s (by omega), ← hr]
  simp [fdiv64, fdiv, rounded, hsq0.ne']

/-- Scaling a binary64 value by a power of two is exact while the result is not
subnormal beyond its last bit and does not overflow. -/
theorem ldexp64_finite (N : Nat) (j d : Int) (hN0 : 0 < N) (hN : N ≤ 2 ^ 53)
    (hlo : -1074 ≤ j + d) (hhi : j + d ≤ 900) :
    ldexp64 (.finite ((N : ℚ) * 2 ^ j)) d = .finite ((N : ℚ) * 2 ^ j * 2 ^ d) := by
  have hrw : (N : ℚ) * 2 ^ j * 2 ^ d = (N : ℚ) * 2 ^ (j + d) := by
    rw [zpow_add₀ two_ne_zero, mul_assoc]
  have hNq : (N : ℚ) ≤ 2 ^ 53 := by exact_mod_cast hN
  have hbound : (N : ℚ) * 2 ^ (j + d) < 2 ^ 1024 := by
    calc (N : ℚ) * 2 ^ (j + d) ≤ 2 ^ 53 * 2 ^ (900 : Int) :=
          mul_le_mul hNq (zpow_le_zpow_right₀ one_le_two hhi) (by positivity) (by positivity)
      _ < 2 ^ 1024 := by norm_num
  unfold ldexp64 ldexp rounded
  simp only []
  rw [hrw]
  exact round64_scale N (j + d) hN0 hN hlo hbound

theorem difficulty_binary64_eq (bits : Nat) :
    difficulty_binary64 bits
      = ldexp64 (fdiv64 (ofNat64 0x00FFFF) (ofNat64 (significand_bits bits)))
          (8 * (29 - (exponent_byte bits : Int))) := by
  unfold difficulty_binary64 significand64
  rw [toInt32_exponent_diff]

/-- Closed form of `difficulty_binary64` while the scaling does not underflow: the
rounded quotient, scaled exactly. -/
theorem difficulty_binary64_normal (bits : Nat) (hs : significand_bits bits ≠ 0)
    (he : exponent_byte bits ≤ 155) :
    ∃ r : ℚ, 0 < r ∧
      fdiv64 (ofNat64 0x00FFFF) (ofNat64 (significand_bits bits)) = .finite r ∧
      difficulty_binary64 bits = .finite (r * 2 ^ (8 * (29 - (exponent_byte bits : Int)))) := by
  obtain ⟨N, j, h52, h53, hj1, hj2, hq⟩ :=
    quotient64 (significand_bits bits) (Nat.pos_of_ne_zero hs) (significand_bits_lt bits)
  have hN0 : 0 < N := by omega
  have hNq : (0 : ℚ) < (N : ℚ) := by exact_mod_cast hN0
  refine ⟨(N : ℚ) * 2 ^ j, by positivity, hq, ?_⟩
  rw [difficulty_binary64_eq, hq]
  exact ldexp64_finite N j _ hN0 h53 (by omega) (by omega)

/-- The quotient at the reference significand is exactly one. -/
theorem quotient64_reference : fdiv64 (ofNat64 0x00FFFF) (ofNat64 0xffff) = .finite 1 := by
  rw [ofNat64_eq _ (by norm_num)]
  have h := round64_exact 1 0 (by norm_num) (by norm_num) (by norm_num) (by norm_num)
  simp only [Nat.cast_one, zpow_zero, mul_one] at h
  simp [fdiv64, fdiv, rounded, h]

/-! ## The specification's statements -/

/-- C1: for every 32-bit `bits` whose low 24 bits are non-zero, `difficulty bits` is
`(65535 / s) * 2 ^ d` in exact rational arithmetic, where `e = (bits >> 24) & 0xFF`,
`s = bits & 0xFFFFFF` and `d = 8 * (29 - e)` is a signed integer. -/
theorem C1_difficulty_formula (bits : Nat) (hb : bits < 2 ^ 32)
    (hs : bits &&& 0xFFFFFF ≠ 0) :
    difficulty bits
      = .finite ((65535 / ((bits &&& 0xFFFFFF : Nat) : ℚ))
          * 2 ^ (8 * (29 - (((bits >>> 24) &&& 0xFF : Nat) : Int)))) :=
  difficulty_finite bits hs

theorem C1_difficulty_formula_witness :
    (0xff000001 : Nat) < 2 ^ 32 ∧ (0xff000001 &&& 0xFFFFFF : Nat) ≠ 0 ∧
    difficulty 0xff000001
      = .finite ((65535 / ((0xff000001 &&& 0xFFFFFF : Nat) : ℚ))
          * 2 ^ (8 * (29 - (((0xff000001 >>> 24) &&& 0xFF : Nat) : Int)))) :=
  ⟨by decide, by decide, C1_difficulty_formula 0xff000001 (by decide) (by decide)⟩

/-- C2 as stated fails: `difficulty 0x1c0eba64` is not a finite value in
`[17.41419, 17.41420)`. -/
theorem C2_counterexample :
    ¬ ∃ q : ℚ, difficulty 0x1c0eba64 = .finite q ∧ 17.41419 ≤ q ∧ q < 17.41420 := by
  rintro ⟨q, hq, hlo, -⟩
  rw [difficulty_finite _ (by decide)] at hq
  have he : exponent_byte 0x1c0eba64 = 28 := by decide
  have hsb : significand_bits 0x1c0eba64 = 965220 := by decide
  rw [he, hsb] at hq
  injection hq with hq
  norm_num at hq
  rw [← hq] at hlo
  norm_num at hlo

/-- C2, amended: for the input `0x1c0eba64` that `main` passes, `difficulty` returns
`ratio * 2 ^ 8 = ratio * 256` with `ratio = 65535 / 965220`, a value of `17.38148...`:
`17.38148 ≤ difficulty 0x1c0eba64 < 17.38149`. -/
theorem C2_main_value :
    main_bits = 0x1c0eba64 ∧
    ∃ q : ℚ, difficulty main_bits = .finite q ∧ q = 65535 / 965220 * 2 ^ (8 : Int) ∧
      q = 65535 / 965220 * 256 ∧ 17.38148 ≤ q ∧ q < 17.38149 := by
  refine ⟨rfl, 65535 / 965220 * 256, ?_, by norm_num, rfl, by norm_num, by norm_num⟩
  rw [difficulty_finite _ (by decide)]
  have he : exponent_byte main_bits = 28 := by decide
  have hsb : significand_bits main_bits = 965220 := by decide
  rw [he, hsb]
  norm_num

/-- C3 as stated fails: the significand extracted from `0x1c0eba64` is not 963172. -/
theorem C3_counterexample :
    significand_bits 0x1c0eba64 = 0x0eba64 ∧ significand_bits 0x1c0eba64 ≠ 963172 := by
  decide

/-- C3, amended: for the input `0x1c0eba64` the significand that `difficulty` extracts
(`bits & 0xFFFFFF = 0x0eba64`) is the integer 965220. -/
theorem C3_significand_value :
    significand_bits 0x1c0eba64 = 0x0eba64 ∧ significand_bits 0x1c0eba64 = 965220 ∧
    significand 0x1c0eba64 = .finite 965220 := by
  refine ⟨by decide, by decide, ?_⟩
  have hsb : significand_bits 0x1c0eba64 = 965220 := by decide
  simp [significand, ofNat, hsb]

/-- C4: for every 32-bit `bits` whose exponent byte is `0x1D` and whose significand `s`
is non-zero, `exponent_diff` is 0 and `difficulty bits` is `65535 / s` exactly, with
no scaling. -/
theorem C4_reference_exponent (bits : Nat) (hb : bits < 2 ^ 32)
    (he : exponent_byte bits = 0x1D) (hs : significand_bits bits ≠ 0) :
    exponent_diff bits = 0 ∧ toInt32 (exponent_diff bits) = 0 ∧
    difficulty bits = .finite (65535 / (significand_bits bits : ℚ)) := by
  have hd : toInt32 (exponent_diff bits) = 0 := by
    rw [toInt32_exponent_diff, he]
    norm_num
  refine ⟨?_, hd, ?_⟩
  · unfold exponent_diff
    rw [he]
    decide
  · rw [difficulty_finite bits hs, he]
    norm_num

theorem C4_reference_exponent_witness :
    exponent_diff 0x1d0eba64 = 0 ∧ toInt32 (exponent_diff 0x1d0eba64) = 0 ∧
    difficulty 0x1d0eba64 = .finite (65535 / (significand_bits 0x1d0eba64 : ℚ)) :=
  C4_reference_exponent 0x1d0eba64 (by decide) (by decide) (by decide)

/-- C5: for every 32-bit `bits` whose significand is 0, whatever the exponent byte,
`difficulty bits` is positive infinity, an ordinary value of the result type: it is
neither NaN, nor negative infinity, nor finite. -/
theorem C5_zero_significand (bits : Nat) (hb : bits < 2 ^ 32)
    (hs : significand_bits bits = 0) :
    difficulty bits = .posInf ∧ difficulty bits ≠ .nan ∧ difficulty bits ≠ .negInf ∧
    ∀ q : ℚ, difficulty bits ≠ .finite q := by
  rw [difficulty_inf bits hs]
  exact ⟨rfl, by decide, by decide, fun q h => Double.noConfusion h⟩

theorem C5_zero_significand_witness :
    difficulty 0xff000000 = .posInf ∧ difficulty 0xff000000 ≠ .nan ∧
    difficulty 0xff000000 ≠ .negInf ∧ ∀ q : ℚ, difficulty 0xff000000 ≠ .finite q :=
  C5_zero_significand 0xff000000 (by decide) (by decide)

/-- C6 as stated fails on the doubles the code computes: at significand `0xffff` the
result for exponent byte 164 has underflowed to 0 while the one for exponent byte 163
is `2 ^ (-1072)`, so the former times 256 is not the latter. -/
theorem C6_counterexample :
    (0xa400ffff : Nat) = (163 + 1) * 2 ^ 24 + 0xffff ∧
    (0xa300ffff : Nat) = 163 * 2 ^ 24 + 0xffff ∧
    difficulty_binary64 0xa400ffff = .finite 0 ∧
    difficulty_binary64 0xa300ffff = .finite (2 ^ (-1072 : Int)) ∧
    ¬ ∃ q : ℚ, difficulty_binary64 0xa400ffff = .finite q ∧
      difficulty_binary64 0xa300ffff = .finite (q * 256) := by
  have hs1 : significand_bits 0xa400ffff = 0xffff := by decide
  have hs2 : significand_bits 0xa300ffff = 0xffff := by decide
  have he1 : exponent_byte 0xa400ffff = 164 := by decide
  have he2 : exponent_byte 0xa300ffff = 163 := by decide
  have h1 : difficulty_binary64 0xa400ffff = .finite 0 := by
    rw [difficulty_binary64_eq, hs1, he1, quotient64_reference]
    have h := round64_underflow (2 ^ (-1080 : Int)) (by positivity)
      (zpow_lt_zpow_right₀ one_lt_two (by norm_num))
    simpa [ldexp64, ldexp, rounded] using h
  have h2 : difficulty_binary64 0xa300ffff = .finite (2 ^ (-1072 : Int)) := by
    rw [difficulty_binary64_eq, hs2, he2, quotient64_reference]
    have h := round64_exact 1 (-1072) (by norm_num) (by norm_num) (by norm_num)
      (by
        rw [Nat.cast_one, one_mul]
        exact lt_of_lt_of_le (zpow_lt_zpow_right₀ one_lt_two (by norm_num : (-1072 : Int) < 0))
          (by norm_num))
    simpa [ldexp64, ldexp, rounded] using h
  refine ⟨by decide, by decide, h1, h2, ?_⟩
  rintro ⟨q, hq1, hq2⟩
  rw [h1] at hq1
  rw [h2] at hq2
  injection hq1 with hq1
  injection hq2 with hq2
  rw [← hq1, zero_mul] at hq2
  exact absurd hq2 (by positivity)

/-- C6, amended: holding the significand `0 < s < 2 ^ 24` fixed, one more on the exponent
byte divides the result by 256, both results being finite and positive: in exact
arithmetic for every exponent byte `e ≤ 254`, and on the binary64 doubles the code
computes for every `e ≤ 154`, where the scaling does not underflow. -/
theorem C6_exponent_step (s e : Nat) (hs0 : 0 < s) (hs : s < 2 ^ 24) (he : e ≤ 254) :
    (∃ q : ℚ, 0 < q ∧ difficulty ((e + 1) * 2 ^ 24 + s) = .finite q ∧
      difficulty (e * 2 ^ 24 + s) = .finite (q * 256)) ∧
    (e ≤ 154 → ∃ q : ℚ, 0 < q ∧ difficulty_binary64 ((e + 1) * 2 ^ 24 + s) = .finite q ∧
      difficulty_binary64 (e * 2 ^ 24 + s) = .finite (q * 256)) := by
  have hs1 : significand_bits ((e + 1) * 2 ^ 24 + s) = s := significand_bits_pack _ _ hs
  have hs2 : significand_bits (e * 2 ^ 24 + s) = s := significand_bits_pack _ _ hs
  have he1 : exponent_byte ((e + 1) * 2 ^ 24 + s) = e + 1 :=
    exponent_byte_pack _ _ (by omega) hs
  have he2 : exponent_byte (e * 2 ^ 24 + s) = e := exponent_byte_pack _ _ (by omega) hs
  constructor
  · refine ⟨_, ?_, difficulty_finite _ (by omega), ?_⟩
    · rw [hs1]
      exact mul_pos (ratio_bounds s (by omega)).1 (scale_pos _)
    · rw [difficulty_finite _ (by omega), hs1, hs2, he1, he2, mul_assoc, scale_step]
  · intro he154
    obtain ⟨r1, hr1, hq1, hd1⟩ :=
      difficulty_binary64_normal ((e + 1) * 2 ^ 24 + s) (by omega) (by omega)
    obtain ⟨r2, -, hq2, hd2⟩ :=
      difficulty_binary64_normal (e * 2 ^ 24 + s) (by omega) (by omega)
    rw [hs1] at hq1
    rw [hs2, hq1] at hq2
    injection hq2 with hq2
    rw [he1] at hd1
    rw [he2, ← hq2] at hd2
    refine ⟨_, mul_pos hr1 (scale_pos _), hd1, ?_⟩
    rw [hd2, mul_assoc, scale_step]

theorem C6_exponent_step_witness :
    (∃ q : ℚ, 0 < q ∧ difficulty ((154 + 1) * 2 ^ 24 + 0xffffff) = .finite q ∧
      difficulty (154 * 2 ^ 24 + 0xffffff) = .finite (q * 256)) ∧
    (∃ q : ℚ, 0 < q ∧ difficulty_binary64 ((154 + 1) * 2 ^ 24 + 0xffffff) = .finite q ∧
      difficulty_binary64 (154 * 2 ^ 24 + 0xffffff) = .finite (q * 256)) :=
  have h := C6_exponent_step 0xffffff 154 (by decide) (by decide) (by decide)
  ⟨h.1, h.2 (by decide)⟩

/-- C7: the two extracted fields partition the packed value: for every 32-bit `bits`,
`e = (bits >> 24) & 0xFF` is the top 8 bits (`e ≤ 255`), `s = bits & 0xFFFFFF` is the
bottom 24 bits (`s < 2 ^ 24`) and `bits = e * 2 ^ 24 + s`; conversely, for `e < 256` and
`s < 2 ^ 24`, the value `e * 2 ^ 24 + s` decodes back to `(e, s)`. -/
theorem C7_fields_partition (bits e s : Nat) (hb : bits < 2 ^ 32) (he : e < 256)
    (hs : s < 2 ^ 24) :
    (exponent_byte bits = bits / 2 ^ 24 ∧ exponent_byte bits ≤ 255 ∧
      significand_bits bits = bits % 2 ^ 24 ∧ significand_bits bits < 2 ^ 24 ∧
      bits = exponent_byte bits * 2 ^ 24 + significand_bits bits) ∧
    (e * 2 ^ 24 + s < 2 ^ 32 ∧
      (exponent_byte (e * 2 ^ 24 + s), significand_bits (e * 2 ^ 24 + s)) = (e, s)) := by
  refine ⟨⟨?_, ?_, significand_bits_eq bits, significand_bits_lt bits, ?_⟩, by omega, ?_⟩
  · rw [exponent_byte_eq]
    omega
  · have := exponent_byte_lt bits
    omega
  · rw [exponent_byte_eq, significand_bits_eq]
    omega
  · rw [exponent_byte_pack e s he hs, significand_bits_pack e s hs]

theorem C7_fields_partition_witness :
    (exponent_byte 0x1c0eba64 = 0x1c0eba64 / 2 ^ 24 ∧ exponent_byte 0x1c0eba64 ≤ 255 ∧
      significand_bits 0x1c0eba64 = 0x1c0eba64 % 2 ^ 24 ∧
      significand_bits 0x1c0eba64 < 2 ^ 24 ∧
      0x1c0eba64 = exponent_byte 0x1c0eba64 * 2 ^ 24 + significand_bits 0x1c0eba64) ∧
    (0xff * 2 ^ 24 + 0xffffff < 2 ^ 32 ∧
      (exponent_byte (0xff * 2 ^ 24 + 0xffffff), significand_bits (0xff * 2 ^ 24 + 0xffffff))
        = (0xff, 0xffffff)) :=
  C7_fields_partition 0x1c0eba64 0xff 0xffffff (by decide) (by decide) (by decide)

/-- C8: for every 32-bit `bits`, the value the code computes in 32-bit unsigned
arithmetic, `8 * (0x1D - e)` modulo `2 ^ 32`, once passed to the 32-bit signed
parameter of `ldexp`, is the integer `8 * (29 - e)`; it lies in `[-1808, 232]` and is
negative whenever the exponent byte exceeds 29. -/
theorem C8_exponent_diff_signed (bits : Nat) (hb : bits < 2 ^ 32) :
    exponent_diff bits < 2 ^ 32 ∧
    (exponent_diff bits : Int) = (8 * (0x1D - (exponent_byte bits : Int))) % 2 ^ 32 ∧
    toInt32 (exponent_diff bits) = 8 * (29 - (exponent_byte bits : Int)) ∧
    -1808 ≤ toInt32 (exponent_diff bits) ∧ toInt32 (exponent_diff bits) ≤ 232 ∧
    (29 < exponent_byte bits → toInt32 (exponent_diff bits) < 0) := by
  have hlt := exponent_byte_lt bits
  have hd := toInt32_exponent_diff bits
  refine ⟨?_, ?_, hd, by omega, by omega, fun h => by omega⟩
  · unfold exponent_diff wrap32
    omega
  · unfold exponent_diff wrap32
    omega

theorem C8_exponent_diff_signed_witness :
    exponent_diff 0xff0eba64 < 2 ^ 32 ∧
    (exponent_diff 0xff0eba64 : Int)
      = (8 * (0x1D - (exponent_byte 0xff0eba64 : Int))) % 2 ^ 32 ∧
    toInt32 (exponent_diff 0xff0eba64) = 8 * (29 - (exponent_byte 0xff0eba64 : Int)) ∧
    -1808 ≤ toInt32 (exponent_diff 0xff0eba64) ∧ toInt32 (exponent_diff 0xff0eba64) ≤ 232 ∧
    (29 < exponent_byte 0xff0eba64 → toInt32 (exponent_diff 0xff0eba64) < 0) :=
  C8_exponent_diff_signed 0xff0eba64 (by decide)

/-- C9: the reference packed value has difficulty exactly one:
`difficulty 0x1d00ffff = 1`, with `exponent_diff` 0 and ratio `65535 / 65535`. -/
theorem C9_reference_difficulty :
    exponent_byte 0x1d00ffff = 0x1D ∧ significand_bits 0x1d00ffff = 0x00FFFF ∧
    exponent_diff 0x1d00ffff = 0 ∧ difficulty 0x1d00ffff = .finite 1 := by
  have he : exponent_byte 0x1d00ffff = 0x1D := by decide
  have hs : significand_bits 0x1d00ffff = 0x00FFFF := by decide
  refine ⟨he, hs, by decide, ?_⟩
  rw [difficulty_finite _ (by decide), he, hs]
  norm_num

/-- C10: `difficulty` is the ratio of the reference target to the target of its input:
with `target bits = s * 256 ^ (e - 3)`, for every 32-bit `bits` with `e ≥ 3` and
`s ≠ 0`, `difficulty bits * target bits = target 0x1d00ffff = 65535 * 256 ^ 26`; hence
two such inputs that encode the same target have the same difficulty. -/
theorem C10_ratio_of_targets (b1 b2 : Nat) (hb1 : b1 < 2 ^ 32) (hb2 : b2 < 2 ^ 32)
    (he1 : 3 ≤ exponent_byte b1) (hs1 : significand_bits b1 ≠ 0)
    (he2 : 3 ≤ exponent_byte b2) (hs2 : significand_bits b2 ≠ 0) :
    (∃ q : ℚ, difficulty b1 = .finite q ∧
      q * (target b1 : ℚ) = (target 0x1d00ffff : ℚ)) ∧
    target 0x1d00ffff = 65535 * 256 ^ 26 ∧
    (target b1 = target b2 → difficulty b1 = difficulty b2) := by
  have hT : target 0x1d00ffff = 65535 * 256 ^ 26 := by
    have he : exponent_byte 0x1d00ffff = 29 := by decide
    have hs : significand_bits 0x1d00ffff = 65535 := by decide
    unfold target
    rw [he, hs]
  have hTq : (target 0x1d00ffff : ℚ) = 65535 * 256 ^ 26 := by
    rw [hT]
    norm_num
  refine ⟨⟨_, difficulty_finite b1 hs1, ?_⟩, hT, fun ht => ?_⟩
  · rw [hTq]
    exact ratio_mul_target b1 he1 hs1
  · have h1 := ratio_mul_target b1 he1 hs1
    have h2 := ratio_mul_target b2 he2 hs2
    have hpos : (target b2 : ℚ) ≠ 0 := by
      have : target b2 ≠ 0 := by
        unfold target
        exact Nat.mul_ne_zero hs2 (pow_ne_zero _ (by decide))
      exact_mod_cast this
    rw [ht] at h1
    rw [difficulty_finite b1 hs1, difficulty_finite b2 hs2]
    congr 1
    exact mul_right_cancel₀ hpos (h1.trans h2.symm)

theorem C10_ratio_of_targets_witness :
    (0x1cffff00 : Nat) ≠ 0x1d00ffff ∧ target 0x1cffff00 = target 0x1d00ffff ∧
    (∃ q : ℚ, difficulty 0x1cffff00 = .finite q ∧
      q * (target 0x1cffff00 : ℚ) = (target 0x1d00ffff : ℚ)) ∧
    target 0x1d00ffff = 65535 * 256 ^ 26 ∧
    difficulty 0x1cffff00 = difficulty 0x1d00ffff :=
  have h := C10_ratio_of_targets 0x1cffff00 0x1d00ffff (by decide) (by decide) (by decide)
    (by decide) (by decide) (by decide)
  ⟨by decide, by decide, h.1, h.2.1, h.2.2 (by decide)⟩

/-- C11: for every 32-bit `bits` with non-zero significand the exact result is finite,
strictly positive and at most `65535 * 2 ^ 232 < 2 ^ 248`, the bound being attained only
at `bits = 0x00000001`; so it stays below `2 ^ 1023`, within the range of a double, and
it is not infinite. -/
theorem C11_positive_bounded (bits : Nat) (hb : bits < 2 ^ 32)
    (hs : significand_bits bits ≠ 0) :
    ∃ q : ℚ, difficulty bits = .finite q ∧ 0 < q ∧ q ≤ 65535 * 2 ^ 232 ∧
      (65535 * 2 ^ 232 : ℚ) < 2 ^ 248 ∧ q < 2 ^ 1023 ∧
      (q = 65535 * 2 ^ 232 ↔ bits = 0x00000001) ∧
      difficulty bits ≠ .posInf ∧ difficulty bits ≠ .negInf := by
  have hfin := difficulty_finite bits hs
  have hbits := bits_eq_fields bits hb
  obtain ⟨hr0, hr⟩ := ratio_bounds (significand_bits bits) hs
  have hp0 := scale_pos (exponent_byte bits)
  have hp := scale_le (exponent_byte bits)
  have hle : 65535 / (significand_bits bits : ℚ) * 2 ^ (8 * (29 - (exponent_byte bits : Int)))
      ≤ 65535 * 2 ^ 232 := mul_le_mul hr hp hp0.le (by norm_num)
  refine ⟨_, hfin, mul_pos hr0 hp0, hle, by norm_num, lt_of_le_of_lt hle (by norm_num),
    ⟨fun heq => ?_, fun h1 => ?_⟩, ?_, ?_⟩
  · by_contra hne
    have hcase : exponent_byte bits ≠ 0 ∨ 2 ≤ significand_bits bits := by omega
    rcases hcase with he | h2
    · have hp2 := scale_le_of_ne_zero (exponent_byte bits) he
      have hlt : 65535 / (significand_bits bits : ℚ)
          * 2 ^ (8 * (29 - (exponent_byte bits : Int))) ≤ 65535 * 2 ^ 224 :=
        mul_le_mul hr hp2 hp0.le (by norm_num)
      rw [heq] at hlt
      norm_num at hlt
    · have hr2 := ratio_le_half (significand_bits bits) h2
      have hlt : 65535 / (significand_bits bits : ℚ)
          * 2 ^ (8 * (29 - (exponent_byte bits : Int))) ≤ 65535 / 2 * 2 ^ 232 :=
        mul_le_mul hr2 hp hp0.le (by norm_num)
      rw [heq] at hlt
      norm_num at hlt
  · have he : exponent_byte bits = 0 := by rw [h1]; decide
    have hsb : significand_bits bits = 1 := by rw [h1]; decide
    rw [he, hsb]
    norm_num
  · rw [hfin]
    exact fun h => Double.noConfusion h
  · rw [hfin]
    exact fun h => Double.noConfusion h

theorem C11_positive_bounded_witness :
    ∃ q : ℚ, difficulty 0x00000001 = .finite q ∧ 0 < q ∧ q ≤ 65535 * 2 ^ 232 ∧
      (65535 * 2 ^ 232 : ℚ) < 2 ^ 248 ∧ q < 2 ^ 1023 ∧
      (q = 65535 * 2 ^ 232 ↔ (0x00000001 : Nat) = 0x00000001) ∧
      difficulty 0x00000001 ≠ .posInf ∧ difficulty 0x00000001 ≠ .negInf :=
  C11_positive_bounded 0x00000001 (by decide) (by decide)

/-- C12: holding the exponent byte fixed, `difficulty` is strictly decreasing in the
significand: for every exponent byte `e ≤ 255` and `0 < s1 < s2 < 2 ^ 24`, both results
are finite and `difficulty (e * 2 ^ 24 + s1) > difficulty (e * 2 ^ 24 + s2)`. -/
theorem C12_decreasing_in_significand (e s1 s2 : Nat) (he : e ≤ 255) (h1 : 0 < s1)
    (h12 : s1 < s2) (h2 : s2 < 2 ^ 24) :
    ∃ q1 q2 : ℚ, difficulty (e * 2 ^ 24 + s1) = .finite q1 ∧
      difficulty (e * 2 ^ 24 + s2) = .finite q2 ∧ q1 > q2 := by
  have hs1 : significand_bits (e * 2 ^ 24 + s1) = s1 := significand_bits_pack _ _ (by omega)
  have hs2 : significand_bits (e * 2 ^ 24 + s2) = s2 := significand_bits_pack _ _ h2
  have he1 : exponent_byte (e * 2 ^ 24 + s1) = e := exponent_byte_pack _ _ (by omega) (by omega)
  have he2 : exponent_byte (e * 2 ^ 24 + s2) = e := exponent_byte_pack _ _ (by omega) h2
  refine ⟨_, _, difficulty_finite _ (by omega), difficulty_finite _ (by omega), ?_⟩
  rw [hs1, hs2, he1, he2]
  have hq1 : (0 : ℚ) < (s1 : ℚ) := by exact_mod_cast h1
  have hq12 : (s1 : ℚ) < (s2 : ℚ) := by exact_mod_cast h12
  have hdiv : 65535 / (s2 : ℚ) < 65535 / (s1 : ℚ) :=
    div_lt_div_of_pos_left (by norm_num) hq1 hq12
  exact mul_lt_mul_of_pos_right hdiv (scale_pos e)

theorem C12_decreasing_in_significand_witness :
    ∃ q1 q2 : ℚ, difficulty (255 * 2 ^ 24 + 1) = .finite q1 ∧
      difficulty (255 * 2 ^ 24 + 0xffffff) = .finite q2 ∧ q1 > q2 :=
  C12_decreasing_in_significand 255 1 0xffffff (by decide) (by decide) (by decide) (by decide)

end DiffCpp
